import Mathlib

/-!
Shallow embedding of the zk-starter-kit core (src/field.rs, src/qap.rs,
src/r1cs.rs, src/proof.rs, src/circuit.rs, src/merkle.rs).

Rust `BigInt` is modelled as `Int`.  Rust's `%` on `BigInt` truncates toward
zero (the remainder keeps the sign of the dividend), which is `Int.tmod`;
Rust's `/` is `Int.tdiv`.  A Rust `panic!` / `todo!()` / out-of-bounds index
is modelled by returning `none` from an `Option`-valued function.
`HashMap<usize, FieldElement>` is modelled as an association list with unique
keys kept in insertion order (iteration order never matters for the
properties proved here).  File persistence is modelled as an exact
round-trip: the artifact written by the prover is the value read by the
verifier.
-/

namespace ZK

/-- The hard-coded modulus `1_000_000_007` used throughout the crate. -/
def P : Int := 1000000007

/-- `FieldElement` from src/field.rs: a value together with its modulus. -/
structure FieldElement where
  value : Int
  modulus : Int
deriving DecidableEq

namespace FieldElement

/-- `FieldElement::new`: normalizes with the truncating `%` against the
hard-coded default modulus. -/
def new (v : Int) : FieldElement :=
  ⟨Int.tmod v P, P⟩

/-- `FieldElement::get_value`. -/
def get_value (a : FieldElement) : Int := a.value

/-- `FieldElement::add` (the method): `new(self.value + other.value)`. -/
def add (a other : FieldElement) : FieldElement :=
  new (a.value + other.value)

/-- `FieldElement::sub`: `new(self.value - other.value)`. -/
def sub (a other : FieldElement) : FieldElement :=
  new (a.value - other.value)

/-- `FieldElement::mul` (the method): `new(self.value * other.value % self.modulus)`. -/
def mul (a other : FieldElement) : FieldElement :=
  new (Int.tmod (a.value * other.value) a.modulus)

/-- `FieldElement::negate`: `new(self.modulus - self.value)`. -/
def negate (a : FieldElement) : FieldElement :=
  new (a.modulus - a.value)

/-- The `AddAssign` impl: `value = (value + other.value) % modulus`, keeping
`self.modulus`.  The owned `Add` impl delegates to this. -/
def addAssign (a other : FieldElement) : FieldElement :=
  ⟨Int.tmod (a.value + other.value) a.modulus, a.modulus⟩

/-- The `Mul<&BigInt>` impl: `new((value * rhs) % modulus)`. -/
def mulBig (a : FieldElement) (rhs : Int) : FieldElement :=
  new (Int.tmod (a.value * rhs) a.modulus)

/-- `FieldElement::extended_gcd`, the recursive extended Euclidean algorithm
(the `self` receiver is unused in the source). -/
def extended_gcd (a b : Int) : Int × Int × Int :=
  if h : b = 0 then (a, 1, 0)
  else
    let r := extended_gcd b (Int.tmod a b)
    (r.1, r.2.2, r.2.1 - Int.tdiv a b * r.2.2)
termination_by b.natAbs
decreasing_by
  have habs : (Int.tmod a b).natAbs = a.natAbs % b.natAbs := by
    rcases a with m | m <;> rcases b with n | n <;>
      simp only [Int.tmod, Int.natAbs_ofNat, Int.natAbs_neg, Int.natAbs_negSucc] <;> rfl
  have hb : 0 < b.natAbs := Int.natAbs_pos.mpr h
  simp only [habs]
  exact Nat.mod_lt _ hb

/-- `FieldElement::inv`: extended gcd of `(value, modulus)`; panics (here:
`none`) when the computed gcd is not `1`, otherwise wraps `x % modulus`. -/
def inv (a : FieldElement) : Option FieldElement :=
  let r := extended_gcd a.value a.modulus
  if r.1 ≠ 1 then none
  else some (new (Int.tmod r.2.1 a.modulus))

end FieldElement

/-- `Polynomial` from src/qap.rs: coefficients keyed by variable index.
The `HashMap` is modelled as an association list with unique keys. -/
structure Polynomial where
  coefficients : List (Nat × FieldElement)
deriving DecidableEq

/-- `*map.entry(i).or_insert(FieldElement::new(0)) += c`: add `c` (with the
`AddAssign` semantics) to the entry at key `i`, inserting `new(0)` first when
the key is absent. -/
def entryAddAssign : List (Nat × FieldElement) → Nat → FieldElement → List (Nat × FieldElement)
  | [], i, c => [(i, FieldElement.addAssign (FieldElement.new 0) c)]
  | (j, v) :: rest, i, c =>
    if j = i then (j, FieldElement.addAssign v c) :: rest
    else (j, v) :: entryAddAssign rest i c

namespace Polynomial

/-- `Polynomial::new`. -/
def new : Polynomial := ⟨[]⟩

/-- Fold a coefficient list into the polynomial, one `entry().or_insert() +=`
per pair (the loop bodies of `QAP::add_constraint` and the accumulation step
of `Polynomial::interpolate`). -/
def addCoeffs (p : Polynomial) (coeffs : List (Nat × FieldElement)) : Polynomial :=
  ⟨coeffs.foldl (fun acc (e : Nat × FieldElement) => entryAddAssign acc e.1 e.2) p.coefficients⟩

/-- `Polynomial::evaluate`: sums `coefficient.mul(assignment[index])` with the
`add` method; `assignment[*index]` panics (here: `none`) when out of bounds. -/
def evaluate (p : Polynomial) (assignment : List FieldElement) : Option FieldElement :=
  p.coefficients.foldl
    (fun acc e =>
      Option.bind acc (fun result =>
        Option.map (fun v => result.add (e.2.mul v)) (assignment.get? e.1)))
    (some (FieldElement.new 0))

end Polynomial

/-- Inner loop of `Polynomial::interpolate` for point `i` with x-coordinate
`x_i`: walk all enumerated points `(j, (x_j, y_j))`, and for `j ≠ i` divide by
`(x_i - x_j)` (which panics — `none` — when non-invertible), push `(1, denom)`
onto the term, then scale every term entry by `denom * (-x_j)`. -/
def interpInner (x_i : FieldElement) (i : Nat) :
    List (Nat × (FieldElement × FieldElement)) → List (Nat × FieldElement) →
    Option (List (Nat × FieldElement))
  | [], term => some term
  | (j, (x_j, _)) :: rest, term =>
    if i = j then interpInner x_i i rest term
    else
      match (x_i.sub x_j).inv with
      | none => none
      | some denom =>
        let coeff := denom.mul x_j.negate
        let term1 := (term ++ [(1, denom)]).map (fun (e : Nat × FieldElement) => (e.1, e.2.mul coeff))
        interpInner x_i i rest term1

/-- Outer loop of `Polynomial::interpolate`: for each enumerated point
`(i, (x_i, y_i))` build the term starting from `[(0, y_i)]`, run the inner
loop, and accumulate the term into the result with `entry().or_insert() +=`. -/
def interpOuter (epts : List (Nat × (FieldElement × FieldElement))) :
    List (Nat × (FieldElement × FieldElement)) → Polynomial → Option Polynomial
  | [], result => some result
  | (i, (x_i, y_i)) :: rest, result =>
    match interpInner x_i i epts [(0, y_i)] with
    | none => none
    | some term => interpOuter epts rest (result.addCoeffs term)

/-- `Polynomial::interpolate` (the `_modulus` parameter is unused in the
source). -/
def Polynomial.interpolate (points : List (FieldElement × FieldElement))
    (_modulus : Int) : Option Polynomial :=
  interpOuter points.enum points.enum Polynomial.new

/-- `QAP` from src/qap.rs: three polynomials. -/
structure QAP where
  left : Polynomial
  right : Polynomial
  output : Polynomial
deriving DecidableEq

namespace QAP

/-- `QAP::new`. -/
def new : QAP := ⟨Polynomial.new, Polynomial.new, Polynomial.new⟩

/-- `QAP::add_constraint`: folds each coefficient list additively into the
corresponding polynomial (the `_modulus` parameter is unused in the source). -/
def add_constraint (q : QAP) (left_coeffs right_coeffs output_coeffs : List (Nat × FieldElement))
    (_modulus : Int) : QAP :=
  ⟨q.left.addCoeffs left_coeffs, q.right.addCoeffs right_coeffs,
    q.output.addCoeffs output_coeffs⟩

end QAP

/-- `Variable` from src/r1cs.rs. -/
structure Variable where
  index : Nat
  value : FieldElement
deriving DecidableEq

/-- `Operation` from src/r1cs.rs. -/
inductive Operation
  | Add
  | Mul
  | Hash
deriving DecidableEq

/-- `Constraint` from src/r1cs.rs: three sides of `(Variable, BigInt)` pairs
and an operation tag. -/
structure Constraint where
  left : List (Variable × Int)
  right : List (Variable × Int)
  output : List (Variable × Int)
  operation : Operation
deriving DecidableEq

/-- `R1CS` from src/r1cs.rs. -/
structure R1CS where
  «variables» : List Variable
  constraints : List Constraint
  qap : QAP
deriving DecidableEq

namespace R1CS

/-- `R1CS::new`. -/
def new : R1CS := ⟨[], [], QAP.new⟩

/-- `R1CS::add_constraint`: the body only forwards to `QAP::add_constraint`;
nothing is pushed onto `self.constraints`. -/
def add_constraint (s : R1CS) (left_coeffs right_coeffs output_coeffs : List (Nat × FieldElement))
    (modulus : Int) : R1CS :=
  { s with qap := s.qap.add_constraint left_coeffs right_coeffs output_coeffs modulus }

/-- `R1CS::generate_witness`: every variable's value, in order. -/
def generate_witness (s : R1CS) : List FieldElement :=
  s.«variables».map (fun v => v.value)

/-- `R1CS::add_variable`: appends a variable with the next index and returns
the index. -/
def add_variable (s : R1CS) (value : FieldElement) : R1CS × Nat :=
  let index := s.«variables».length
  ({ s with «variables» := s.«variables» ++ [⟨index, value⟩] }, index)

end R1CS

/-- One side of a constraint in `R1CS::verify_witness`: starting from
`FieldElement::new(0)`, add `witness[var.index] * coeff` (the `Mul<&BigInt>`
impl followed by the owned `Add` impl) for every pair; `witness[var.index]`
panics (here: `none`) when out of bounds. -/
def evalSide (side : List (Variable × Int)) (witness : List FieldElement) :
    Option FieldElement :=
  side.foldl
    (fun acc e =>
      Option.bind acc (fun ev =>
        Option.map (fun var_value => FieldElement.addAssign ev (FieldElement.mulBig var_value e.2))
          (witness.get? e.1.index)))
    (some (FieldElement.new 0))

/-- The constraint loop of `R1CS::verify_witness`: evaluate the three sides,
return `false` on the first constraint with `left != right || right != output`,
`true` when the list is exhausted. -/
def checkConstraints : List Constraint → List FieldElement → Option Bool
  | [], _ => some true
  | c :: rest, w =>
    match evalSide c.left w, evalSide c.right w, evalSide c.output w with
    | some le, some re, some oe =>
      if le ≠ re ∨ re ≠ oe then some false else checkConstraints rest w
    | _, _, _ => none

/-- `R1CS::verify_witness`. -/
def R1CS.verify_witness (s : R1CS) (witness : List FieldElement) : Option Bool :=
  checkConstraints s.constraints witness

/-- `Proof` from src/proof.rs. -/
structure Proof where
  witness : List Int
  commitment : Int
deriving DecidableEq

namespace Proof

/-- `Proof::hash`: `(left + right) % 1_000_000_007` with the truncating `%`. -/
def hash (left right : Int) : Int :=
  Int.tmod (left + right) P

/-- `Proof::generate_proof`: the `_r1cs` parameter is unused in the source;
the commitment is `hash(sum of raw witness values, 0)`. -/
def generate_proof (_r1cs : R1CS) (witness : List FieldElement) : Proof :=
  let witness_bigint := witness.map FieldElement.get_value
  let commitment_input := witness_bigint.foldl (fun a w => a + w) 0
  ⟨witness_bigint, hash commitment_input 0⟩

end Proof

/-- The per-constraint operation loop of `Proof::verify_proof`: each side is
the raw `BigInt` sum of `(var.value * coeff).get_value()` over the stored
constraint (the proof's witness is not consulted); `Add` requires
`left + right == output`, `Mul` requires `left * right == output`, and `Hash`
hits `todo!()` (here: `none`). -/
def checkOperations : List Constraint → Option Bool
  | [] => some true
  | c :: rest =>
    let le := (c.left.map (fun e => (FieldElement.mulBig e.1.value e.2).get_value)).foldl
      (fun a b => a + b) 0
    let re := (c.right.map (fun e => (FieldElement.mulBig e.1.value e.2).get_value)).foldl
      (fun a b => a + b) 0
    let oe := (c.output.map (fun e => (FieldElement.mulBig e.1.value e.2).get_value)).foldl
      (fun a b => a + b) 0
    match c.operation with
    | Operation.Add => if le + re ≠ oe then some false else checkOperations rest
    | Operation.Mul => if le * re ≠ oe then some false else checkOperations rest
    | Operation.Hash => none

/-- `Proof::verify_proof`: recompute the commitment from the stored witness,
fail on mismatch, then run the per-constraint operation checks. -/
def Proof.verify_proof (proof : Proof) (r1cs : R1CS) : Option Bool :=
  let commitment_input := proof.witness.foldl (fun a w => a + w) 0
  let expected_commitment := Proof.hash commitment_input 0
  if proof.commitment ≠ expected_commitment then some false
  else checkOperations r1cs.constraints

/-- `Gate` from src/circuit.rs. -/
inductive Gate
  | Add (a b output : Nat)
  | Mul (a b output : Nat)

/-- `Circuit` from src/circuit.rs. -/
structure Circuit where
  inputs : List FieldElement
  gates : List Gate
  outputs : List FieldElement
  modulus : Int

namespace Circuit

/-- `Circuit::new` with the default modulus. -/
def new : Circuit := ⟨[], [], [], P⟩

/-- `Circuit::add_input`: appends and returns the index. -/
def add_input (c : Circuit) (value : FieldElement) : Circuit × Nat :=
  ({ c with inputs := c.inputs ++ [value] }, c.inputs.length)

/-- `Circuit::add_gate`. -/
def add_gate (c : Circuit) (gate : Gate) : Circuit :=
  { c with gates := c.gates ++ [gate] }

end Circuit

/-- One iteration of the gate loop in `Circuit::generate_proof`: both gate
kinds emit the same unit-coefficient constraint over
`r1cs.«variables»[a/b/output].index`; the indexing panics (here: `none`) when a
named variable does not exist. -/
def addGateConstraint (r1cs : R1CS) (modulus : Int) : Gate → Option R1CS
  | Gate.Add a b output => do
    let va ← r1cs.«variables».get? a
    let vb ← r1cs.«variables».get? b
    let vo ← r1cs.«variables».get? output
    pure (r1cs.add_constraint [(va.index, FieldElement.new 1)] [(vb.index, FieldElement.new 1)]
      [(vo.index, FieldElement.new 1)] modulus)
  | Gate.Mul a b output => do
    let va ← r1cs.«variables».get? a
    let vb ← r1cs.«variables».get? b
    let vo ← r1cs.«variables».get? output
    pure (r1cs.add_constraint [(va.index, FieldElement.new 1)] [(vb.index, FieldElement.new 1)]
      [(vo.index, FieldElement.new 1)] modulus)

/-- `Circuit::generate_proof`: panics (here: `none`) on an empty input list,
registers every input as an R1CS variable, runs the gate loop, and builds the
proof from the generated witness.  The two artifacts the source writes to
disk (the R1CS and the proof) are returned; persistence is modelled as an
exact round-trip. -/
def Circuit.generate_proof (c : Circuit) : Option (R1CS × Proof) :=
  if c.inputs.isEmpty then none
  else do
    let r0 := c.inputs.foldl (fun s v => (s.add_variable v).1) R1CS.new
    let r1 ← c.gates.foldlM (fun s g => addGateConstraint s c.modulus g) r0
    let witness := r1.generate_witness
    pure (r1, Proof.generate_proof r1 witness)

/-- `Circuit::verify_proof`: reads back the proof and the R1CS (modelled as
the exact values produced by `Circuit.generate_proof`), converts the raw
witness integers back to field elements with `FieldElement::new`, and returns
`r1cs.verify_witness(witness)`. -/
def Circuit.verify_proof (r1cs : R1CS) (proof : Proof) : Option Bool :=
  let witness := proof.witness.map (fun v => FieldElement.new v)
  r1cs.verify_witness witness

/-- `MerkleTree` from src/merkle.rs. -/
structure MerkleTree where
  root : Int
  leaves : List Int
deriving DecidableEq

namespace MerkleTree

/-- `MerkleTree::hash`: `(left + right) % 1_000_000_007` with the truncating
`%`. -/
def hash (left right : Int) : Int :=
  Int.tmod (left + right) P

end MerkleTree

/-- One level reduction: `nodes.chunks(2)` combined with `MerkleTree::hash`,
a trailing odd node carried forward unchanged. -/
def nextLevel : List Int → List Int
  | [] => []
  | [x] => [x]
  | a :: b :: rest => MerkleTree.hash a b :: nextLevel rest

/-- `MerkleTree::compute_root`: reduce levels while more than one node
remains, then return `nodes[0]` — which panics (here: `none`) on an empty
leaf list. -/
def MerkleTree.compute_root (leaves : List Int) : Option Int :=
  match leaves with
  | [] => none
  | [x] => some x
  | a :: b :: rest => MerkleTree.compute_root (nextLevel (a :: b :: rest))
termination_by leaves.length
decreasing_by
  have hlen : ∀ l : List Int, (nextLevel l).length ≤ l.length := by
    intro l
    induction l using nextLevel.induct with
    | case1 => simp [nextLevel]
    | case2 => simp [nextLevel]
    | case3 a b rest ih => simp only [nextLevel, List.length_cons]; omega
  have := hlen rest
  simp only [nextLevel, List.length_cons]
  omega

/-- `MerkleTree::new`: computes the root (propagating the empty-list panic)
and stores the leaves. -/
def MerkleTree.new (leaves : List Int) : Option MerkleTree :=
  (MerkleTree.compute_root leaves).map (fun root => ⟨root, leaves⟩)

/-- The level loop of `MerkleTree::merkle_path`: record
`(nodes[sibling], current_index is even)` when the sibling exists, then
recurse on the next level with the halved index. -/
def merklePathAux (nodes : List Int) (current_index : Nat) : List (Int × Bool) :=
  match nodes with
  | [] => []
  | [_] => []
  | a :: b :: rest =>
    let ns := a :: b :: rest
    let sibling_index := if current_index % 2 = 0 then current_index + 1 else current_index - 1
    let entry :=
      match ns.get? sibling_index with
      | some s => [(s, decide (current_index % 2 = 0))]
      | none => []
    entry ++ merklePathAux (nextLevel ns) (current_index / 2)
termination_by nodes.length
decreasing_by
  have hlen : ∀ l : List Int, (nextLevel l).length ≤ l.length := by
    intro l
    induction l using nextLevel.induct with
    | case1 => simp [nextLevel]
    | case2 => simp [nextLevel]
    | case3 a b rest ih => simp only [nextLevel, List.length_cons]; omega
  have := hlen rest
  simp only [nextLevel, List.length_cons]
  omega

/-- `MerkleTree::merkle_path`. -/
def MerkleTree.merkle_path (t : MerkleTree) (index : Nat) : List (Int × Bool) :=
  merklePathAux t.leaves index

/-- The verifier-side replay described by the spec: sequentially recombine
the leaf with each recorded sibling, on the side indicated by the recorded
flag (`true` means the current node was the left, even-indexed child). -/
def replayPath (leaf : Int) (path : List (Int × Bool)) : Int :=
  path.foldl
    (fun current e => if e.2 then MerkleTree.hash current e.1 else MerkleTree.hash e.1 current)
    leaf

/-!  Concrete test inputs used by the claim-level statements below. -/

/-- The spec's concrete scenario, built through the builder facade: inputs
`3`, `4` at indices `0`, `1`, the multiplication result `12` registered at
index `2`, and one `Mul(0, 1, 2)` gate. -/
def mulScenarioCircuit : Circuit :=
  ((((Circuit.new.add_input (FieldElement.new 3)).1.add_input (FieldElement.new 4)).1.add_input
    (FieldElement.new 12)).1.add_gate (Gate.Mul 0 1 2))

/-- The R1CS of the concrete scenario as it would look with the `Mul(0,1,2)`
constraint correctly recorded in the constraint list, after tampering the
stored value of variable `2` to `13`. -/
def tamperedMulSystem : R1CS :=
  ⟨[⟨0, FieldElement.new 3⟩, ⟨1, FieldElement.new 4⟩, ⟨2, FieldElement.new 13⟩],
   [⟨[(⟨0, FieldElement.new 3⟩, 1)], [(⟨1, FieldElement.new 4⟩, 1)],
     [(⟨2, FieldElement.new 13⟩, 1)], Operation.Mul⟩],
   QAP.new⟩

/-- A system whose `Mul(0,1,2)`-shaped constraint was added through
`R1CS::add_constraint`, over variables `3`, `4`, `12`. -/
def addedMulSystem : R1CS :=
  ((((R1CS.new.add_variable (FieldElement.new 3)).1.add_variable (FieldElement.new 4)).1.add_variable
    (FieldElement.new 12)).1.add_constraint [(0, FieldElement.new 1)] [(1, FieldElement.new 1)]
    [(2, FieldElement.new 1)] P)

/-- A system holding a single `Hash`-tagged constraint whose three sides are
the same unit combination of variable `0`. -/
def hashTaggedSystem : R1CS :=
  ⟨[⟨0, FieldElement.new 5⟩],
   [⟨[(⟨0, FieldElement.new 5⟩, 1)], [(⟨0, FieldElement.new 5⟩, 1)],
     [(⟨0, FieldElement.new 5⟩, 1)], Operation.Hash⟩],
   QAP.new⟩

/-- A system whose first constraint is in-bounds but unsatisfied and whose
second constraint references variable index `5`, out of bounds for a
two-entry witness. -/
def outOfBoundsSystem : R1CS :=
  ⟨[],
   [⟨[(⟨0, FieldElement.new 0⟩, 1)], [(⟨1, FieldElement.new 0⟩, 1)],
     [(⟨1, FieldElement.new 0⟩, 1)], Operation.Add⟩,
    ⟨[(⟨5, FieldElement.new 0⟩, 1)], [], [], Operation.Add⟩],
   QAP.new⟩

/-- A system whose only constraint references variable index `5`, out of
bounds for any short witness. -/
def oobOnlySystem : R1CS :=
  ⟨[], [⟨[(⟨5, FieldElement.new 0⟩, 1)], [], [], Operation.Add⟩], QAP.new⟩

/-- The proof generated for the raw witness `[3, 4, 12]` (its commitment is
`(3 + 4 + 12) % P = 19`). -/
def scenarioProof : Proof :=
  Proof.generate_proof R1CS.new
    [FieldElement.new 3, FieldElement.new 4, FieldElement.new 12]

/-- A constraint holds on a witness when all three sides evaluate (no
out-of-bounds index) to the same field element. -/
def constraintHolds (c : Constraint) (w : List FieldElement) : Prop :=
  ∃ le re oe, evalSide c.left w = some le ∧ evalSide c.right w = some re ∧
    evalSide c.output w = some oe ∧ le = re ∧ re = oe

/-!  Claim-level theorems. -/

/-- Claim C1: `add_constraint` is supposed to both append a `Constraint`
record and fold the coefficients into the QAP polynomials.  The code performs
only the QAP fold: for every call the constraints list is left unchanged,
while (as the concrete call shows) the coefficient does reach the QAP's left
polynomial.  The appending effect never happens. -/
theorem add_constraint_updates_qap_only :
    (∀ (s : R1CS) (l r o : List (Nat × FieldElement)) (m : Int),
      (s.add_constraint l r o m).constraints = s.constraints) ∧
    (R1CS.new.add_constraint [(0, FieldElement.new 1)] [] [] P).constraints = [] ∧
    (R1CS.new.add_constraint [(0, FieldElement.new 1)] [] [] P).qap.left.coefficients
      = [(0, FieldElement.new 1)] :=
  ⟨fun _ _ _ _ _ => rfl, rfl, by decide⟩

/-- Claim C2: for a system whose constraints were added via `add_constraint`,
flipping variable `2` of the witness to `13` (so the added `Mul(0,1,2)`-shaped
constraint's sides `3`, `4`, `13` disagree) is claimed to make
`verify_witness` return `false`.  It returns `true`: `add_constraint` left the
constraint list that `verify_witness` reads empty, so the loop is vacuous. -/
theorem verify_witness_vacuous_on_added_constraints :
    addedMulSystem.constraints = [] ∧
    addedMulSystem.verify_witness
      [FieldElement.new 3, FieldElement.new 4, FieldElement.new 13] = some true := by
  decide

/-- Claim C3: the concrete scenario.  `generate_proof` followed by
`verify_proof` on the builder circuit (inputs `3`, `4`, output variable `12`,
one `Mul(0,1,2)` gate) returns `true`; and on the system with the `Mul`
constraint correctly recorded and variable `2` tampered to `13`,
`verify_witness` on the recomputed witness returns `false`. -/
theorem mul_scenario_roundtrip :
    (Option.bind (Circuit.generate_proof mulScenarioCircuit)
      (fun rp => Circuit.verify_proof rp.1 rp.2)) = some true ∧
    tamperedMulSystem.verify_witness tamperedMulSystem.generate_witness = some false := by
  decide

/-- Claim C4: every constructed or computed `FieldElement` is claimed to
satisfy `0 <= value < modulus`; in particular `a.sub(b)` is claimed to be
renormalized into `[0, modulus)`.  Evaluating the code at
`a = new(3), b = new(4)`: the truncating `%` leaves `a.sub(b).value = -1`,
outside `[0, modulus)`. -/
theorem sub_not_renormalized :
    ((FieldElement.new 3).sub (FieldElement.new 4)).value = -1 ∧
    ¬ (0 ≤ ((FieldElement.new 3).sub (FieldElement.new 4)).value) := by
  decide

/-- Base step of the gcd chain for `inv(2)`. -/
theorem extended_gcd_one_zero : FieldElement.extended_gcd 1 0 = (1, 1, 0) := by
  rw [FieldElement.extended_gcd]; decide

/-- Second-to-last step of the gcd chain for `inv(2)`. -/
theorem extended_gcd_two_one : FieldElement.extended_gcd 2 1 = (1, 0, 1) := by
  rw [FieldElement.extended_gcd]
  have ht : Int.tmod 2 1 = 0 := by decide
  rw [ht, extended_gcd_one_zero]; decide

/-- Middle step of the gcd chain for `inv(2)`: the Bezout coefficient for the
modulus goes negative here. -/
theorem extended_gcd_p_two : FieldElement.extended_gcd 1000000007 2 = (1, 1, -500000003) := by
  rw [FieldElement.extended_gcd]
  have ht : Int.tmod 1000000007 2 = 1 := by decide
  rw [ht, extended_gcd_two_one]; decide

/-- The full gcd chain for `inv(2)`: gcd `1`, with the negative Bezout
coefficient `-500000003` for the value `2`. -/
theorem extended_gcd_two_p : FieldElement.extended_gcd 2 1000000007 = (1, -500000003, 1) := by
  rw [FieldElement.extended_gcd]
  have ht : Int.tmod 2 1000000007 = 2 := by decide
  rw [ht, extended_gcd_p_two]; decide

/-- Base step of the gcd chain for `inv(0)`. -/
theorem extended_gcd_p_zero : FieldElement.extended_gcd 1000000007 0 = (1000000007, 1, 0) := by
  rw [FieldElement.extended_gcd]; decide

/-- The gcd chain for `inv(0)` returns the modulus as the gcd. -/
theorem extended_gcd_zero_p : FieldElement.extended_gcd 0 1000000007 = (1000000007, 0, 1) := by
  rw [FieldElement.extended_gcd]
  have ht : Int.tmod 0 1000000007 = 0 := by decide
  rw [ht, extended_gcd_p_zero]; decide

/-- `inv(2)` evaluates to the non-normalized negative representative. -/
theorem inv_two_eval : (FieldElement.new 2).inv = some ⟨-500000003, P⟩ := by
  have h2 : FieldElement.new 2 = ⟨2, P⟩ := by decide
  rw [h2, FieldElement.inv]
  rw [show (P : Int) = 1000000007 from rfl]
  rw [show (⟨2, (1000000007 : Int)⟩ : FieldElement).value = 2 from rfl]
  rw [extended_gcd_two_p]
  decide

/-- `inv(0)` fails: the computed gcd is the modulus, not `1`. -/
theorem inv_zero_eval : (FieldElement.new 0).inv = none := by
  have h0 : FieldElement.new 0 = ⟨0, P⟩ := by decide
  rw [h0, FieldElement.inv]
  rw [show (P : Int) = 1000000007 from rfl]
  rw [show (⟨0, (1000000007 : Int)⟩ : FieldElement).value = 0 from rfl]
  rw [extended_gcd_zero_p]
  decide

/-- Inner interpolation loop on the second of two points sharing the
x-coordinate `1`: the denominator `(x_0 - x_1)` is zero and `inv` fails. -/
theorem interpInner_dup_tail : ∀ term, interpInner (FieldElement.new 1) 0
    [(1, (FieldElement.new 1, FieldElement.new 7))] term = none := by
  intro term
  rw [interpInner]
  rw [if_neg (by decide)]
  rw [show ((FieldElement.new 1).sub (FieldElement.new 1)) = FieldElement.new 0 from by decide]
  rw [inv_zero_eval]

/-- Inner interpolation loop for point `0` over both duplicated points. -/
theorem interpInner_dup : ∀ term, interpInner (FieldElement.new 1) 0
    [(0, (FieldElement.new 1, FieldElement.new 5)), (1, (FieldElement.new 1, FieldElement.new 7))]
    term = none := by
  intro term
  rw [interpInner]
  rw [if_pos rfl]
  exact interpInner_dup_tail term

/-- `Polynomial::interpolate` on two points sharing an x-coordinate fails
through the non-invertible zero denominator. -/
theorem interpolate_dup_eval : Polynomial.interpolate
    [(FieldElement.new 1, FieldElement.new 5), (FieldElement.new 1, FieldElement.new 7)] P
      = none := by
  rw [Polynomial.interpolate]
  rw [show ([(FieldElement.new 1, FieldElement.new 5),
      (FieldElement.new 1, FieldElement.new 7)]).enum
      = [(0, (FieldElement.new 1, FieldElement.new 5)),
         (1, (FieldElement.new 1, FieldElement.new 7))] from rfl]
  rw [interpOuter]
  rw [interpInner_dup]

/-- Claim C5: for nonzero `a` coprime to the modulus, `a.mul(a.inv())` is
claimed to normalize to the multiplicative identity.  Evaluating the code at
`a = new(2)`: `inv` returns the negative Bezout coefficient `-500000003`
(the truncating `%` does not renormalize it), and `a.mul(a.inv())` has value
`-1000000006` — congruent to `1` mod p but not the identity element `new(1)`.
The failure half of the claim does hold: `inv(0)` fails with gcd `p ≠ 1`, and
interpolation over two points sharing an x-coordinate fails through the
non-invertible zero denominator. -/
theorem inv_not_normalized_to_identity :
    (FieldElement.new 2).inv = some ⟨-500000003, P⟩ ∧
    ((FieldElement.new 2).mul ⟨-500000003, P⟩).value = -1000000006 ∧
    ((FieldElement.new 2).mul ⟨-500000003, P⟩) ≠ FieldElement.new 1 ∧
    (FieldElement.new 0).inv = none ∧
    Polynomial.interpolate [(FieldElement.new 1, FieldElement.new 5),
      (FieldElement.new 1, FieldElement.new 7)] P = none :=
  ⟨inv_two_eval, by decide, by decide, inv_zero_eval, interpolate_dup_eval⟩

/-- Folding `+` over an integer list from an accumulator is the accumulator
plus the list sum. -/
theorem foldl_add_eq : ∀ (l : List Int) (a : Int), l.foldl (fun x y => x + y) a = a + l.sum
  | [], a => by simp
  | x :: xs, a => by
    simp only [List.foldl, List.sum_cons]
    rw [foldl_add_eq xs (a + x)]
    ring

/-- Replacing entry `i` of an integer list shifts the sum by the difference
between the new and the old entry. -/
theorem sum_set_int : ∀ (l : List Int) (i : Nat) (v : Int), i < l.length →
    (l.set i v).sum = l.sum - l.getD i 0 + v
  | [], i, v, h => by simp at h
  | x :: xs, 0, v, _ => by simp [List.set]; ring
  | x :: xs, i + 1, v, h => by
    simp only [List.set, List.sum_cons, List.getD_cons_succ]
    rw [sum_set_int xs i v (by simpa using h)]
    ring

/-- Two integers with the same truncating remainder mod `m` differ by a
multiple of `m`. -/
theorem dvd_of_tmod_eq {m a b : Int} (h : Int.tmod a m = Int.tmod b m) : m ∣ (a - b) := by
  have h1 : m ∣ (a - Int.tmod a m) := ⟨Int.tdiv a m, by rw [Int.tmod_def]; ring⟩
  have h2 : m ∣ (b - Int.tmod b m) := ⟨Int.tdiv b m, by rw [Int.tmod_def]; ring⟩
  have h3 : a - b = (a - Int.tmod a m) - (b - Int.tmod b m) := by rw [h]; ring
  rw [h3]
  exact dvd_sub h1 h2

/-- Claim C6 counterexample, refuting two parts of the claim at concrete
inputs.  First, changing witness entry `0` of the `[3, 4, 12]` proof to
`3 + P` — a genuine change of that single entry — leaves the recomputed
commitment identical and `verify_proof` still returns `true`, contradicting
the claim that changing any single witness entry changes the recomputed
commitment and makes `verify_proof` return `false`.  Second, the claim
quantifies over *every* `ConstraintSystem`: on a system holding a
`Hash`-tagged constraint even the completely unmodified
`generate_proof`/`verify_proof` round trip is not accepted — verification
reaches the fatal `todo!()` — so the accepting behavior needs the
empty-constraints restriction. -/
theorem commitment_collision_counterexample :
    scenarioProof.witness.set 0 (3 + P) ≠ scenarioProof.witness ∧
    Proof.verify_proof ⟨scenarioProof.witness.set 0 (3 + P), scenarioProof.commitment⟩ R1CS.new
      = some true ∧
    Proof.verify_proof (Proof.generate_proof hashTaggedSystem [FieldElement.new 5])
      hashTaggedSystem = none := by
  decide

/-- Claim C6 (amended): for a constraint system whose constraint list is
empty (as every system built through `add_constraint` is — a `Hash`-tagged
stored constraint makes even the unmodified round trip fail, per the
counterexample), `generate_proof` stores the raw witness values and the
commitment `(sum of raw values) % P` (truncating remainder), and
`verify_proof` accepts the unmodified proof.  Replacing a single witness
entry makes `verify_proof` return `false` exactly when the truncating
remainder mod `P` of the tampered sum differs from that of the original sum;
in particular every change that is not a multiple of `P` makes `verify_proof`
return `false`.  (A change by a multiple of `P` can leave the remainder, and
the accepting verdict, unchanged — the counterexample — but need not: the
truncating remainder keeps the dividend's sign, so a multiple-of-`P` change
that crosses zero also changes the recomputed commitment.) -/
theorem proof_roundtrip_amended (r : R1CS) (ws : List FieldElement) (i : Nat) (v2 : Int)
    (hc : r.constraints = []) :
    (Proof.generate_proof r ws).witness = ws.map FieldElement.get_value ∧
    (Proof.generate_proof r ws).commitment
      = Int.tmod (ws.map FieldElement.get_value).sum P ∧
    Proof.verify_proof (Proof.generate_proof r ws) r = some true ∧
    (Proof.verify_proof ⟨(Proof.generate_proof r ws).witness.set i v2,
        (Proof.generate_proof r ws).commitment⟩ r = some false
      ↔ Int.tmod (((Proof.generate_proof r ws).witness.set i v2).sum) P
          ≠ Int.tmod ((Proof.generate_proof r ws).witness.sum) P) ∧
    (i < (Proof.generate_proof r ws).witness.length →
      ¬ ((P : Int) ∣ (v2 - (Proof.generate_proof r ws).witness.getD i 0)) →
      Proof.verify_proof ⟨(Proof.generate_proof r ws).witness.set i v2,
        (Proof.generate_proof r ws).commitment⟩ r = some false) := by
  have hexp : ∀ (w2 : List Int), Proof.hash (w2.foldl (fun a w => a + w) 0) 0
      = Int.tmod w2.sum P := by
    intro w2
    rw [Proof.hash, foldl_add_eq]
    norm_num
  have hold : (Proof.generate_proof r ws).commitment
      = Int.tmod ((Proof.generate_proof r ws).witness.sum) P := by
    show Proof.hash ((ws.map FieldElement.get_value).foldl (fun a w => a + w) 0) 0 = _
    rw [hexp]
    rfl
  have hver : Proof.verify_proof ⟨(Proof.generate_proof r ws).witness.set i v2,
      (Proof.generate_proof r ws).commitment⟩ r
      = if Int.tmod ((Proof.generate_proof r ws).witness.sum) P
          ≠ Int.tmod (((Proof.generate_proof r ws).witness.set i v2).sum) P
        then some false else some true := by
    show (if (Proof.generate_proof r ws).commitment
        ≠ Proof.hash (((Proof.generate_proof r ws).witness.set i v2).foldl
            (fun a w => a + w) 0) 0
        then some false else checkOperations r.constraints) = _
    rw [hexp, hold, hc]
    rfl
  have hiff : Proof.verify_proof ⟨(Proof.generate_proof r ws).witness.set i v2,
      (Proof.generate_proof r ws).commitment⟩ r = some false
      ↔ Int.tmod (((Proof.generate_proof r ws).witness.set i v2).sum) P
          ≠ Int.tmod ((Proof.generate_proof r ws).witness.sum) P := by
    rw [hver]
    by_cases hcond : Int.tmod ((Proof.generate_proof r ws).witness.sum) P
        = Int.tmod (((Proof.generate_proof r ws).witness.set i v2).sum) P
    · rw [if_neg (by simp [hcond])]
      simp [hcond]
    · rw [if_pos hcond]
      simp [Ne.symm hcond]
  refine ⟨rfl, hold, ?_, hiff, ?_⟩
  · show (if (Proof.generate_proof r ws).commitment
        ≠ Proof.hash ((Proof.generate_proof r ws).witness.foldl (fun a w => a + w) 0) 0
        then some false else checkOperations r.constraints) = some true
    rw [hexp, hold, hc]
    simp [checkOperations]
  · intro hi hd
    refine hiff.mpr ?_
    intro hcontra
    apply hd
    have hdvd := dvd_of_tmod_eq hcontra
    have heq : (((Proof.generate_proof r ws).witness.set i v2).sum)
        - ((Proof.generate_proof r ws).witness.sum)
        = v2 - (Proof.generate_proof r ws).witness.getD i 0 := by
      rw [sum_set_int _ _ _ hi]
      ring
    rw [heq] at hdvd
    exact hdvd

/-- Claim C6 (amended), witness: for the witness `[3, 4]`, changing entry `0`
to `7` (a change of `4`, not a multiple of `P`) makes `verify_proof` return
`false`; and for the negative-valued witness `[-5]`, a change of entry `0` by
exactly `+P` also makes `verify_proof` return `false` through the reverse
direction of the biconditional (the truncating remainder moves from `-5` to
`1000000002`). -/
theorem proof_roundtrip_amended_witness :
    R1CS.new.constraints = [] ∧
    0 < (Proof.generate_proof R1CS.new
      [FieldElement.new 3, FieldElement.new 4]).witness.length ∧
    ¬ ((P : Int) ∣ (7 - (Proof.generate_proof R1CS.new
      [FieldElement.new 3, FieldElement.new 4]).witness.getD 0 0)) ∧
    Proof.verify_proof ⟨(Proof.generate_proof R1CS.new
        [FieldElement.new 3, FieldElement.new 4]).witness.set 0 7,
      (Proof.generate_proof R1CS.new
        [FieldElement.new 3, FieldElement.new 4]).commitment⟩ R1CS.new = some false ∧
    Proof.verify_proof ⟨(Proof.generate_proof R1CS.new
        [FieldElement.new (-5)]).witness.set 0 (-5 + P),
      (Proof.generate_proof R1CS.new
        [FieldElement.new (-5)]).commitment⟩ R1CS.new = some false :=
  ⟨rfl, by decide, by decide,
   (proof_roundtrip_amended R1CS.new [FieldElement.new 3, FieldElement.new 4] 0 7
      rfl).2.2.2.2 (by decide) (by decide),
   (proof_roundtrip_amended R1CS.new [FieldElement.new (-5)] 0 (-5 + P)
      rfl).2.2.2.1.mpr (by decide)⟩

/-- The operation loop of `verify_proof` never returns `true` on a constraint
list containing a `Hash`-tagged constraint: either an earlier constraint
fails (`false`) or the `Hash` arm's `todo!()` is reached (`none`). -/
theorem checkOperations_ne_true : ∀ (cs : List Constraint),
    (∃ c ∈ cs, c.operation = Operation.Hash) → checkOperations cs ≠ some true := by
  intro cs
  induction cs with
  | nil => intro h; simp at h
  | cons c rest ih =>
    rintro ⟨c2, hc2, hop⟩
    obtain ⟨cl, cr, co, op⟩ := c
    rcases List.mem_cons.mp hc2 with heq | hmem
    · subst heq
      simp only at hop
      subst hop
      simp [checkOperations]
    · cases op with
      | Add =>
        simp only [checkOperations]
        split
        · simp
        · exact ih ⟨c2, hmem, hop⟩
      | Mul =>
        simp only [checkOperations]
        split
        · simp
        · exact ih ⟨c2, hmem, hop⟩
      | Hash => simp [checkOperations]

/-- `verify_proof` never accepts when a `Hash`-tagged constraint is present. -/
theorem verify_proof_rejects_hash (pr : Proof) (r : R1CS)
    (h : ∃ c ∈ r.constraints, c.operation = Operation.Hash) :
    Proof.verify_proof pr r ≠ some true := by
  rw [Proof.verify_proof]
  split
  · simp
  · exact checkOperations_ne_true r.constraints h

/-- The constraint loop of `verify_witness` never looks at the operation tag:
retagging every constraint as `Hash` changes nothing. -/
theorem checkConstraints_op_irrelevant : ∀ (cs : List Constraint) (w : List FieldElement),
    checkConstraints (cs.map (fun c => ⟨c.left, c.right, c.output, Operation.Hash⟩)) w
      = checkConstraints cs w
  | [], _ => rfl
  | c :: rest, w => by
    simp only [List.map, checkConstraints]
    rw [checkConstraints_op_irrelevant rest w]

/-- Claim C8 counterexample: a `Hash`-tagged constraint reaching
`verify_witness`'s loop whose three sides agree is silently accepted —
`verify_witness` returns `true` — contradicting the claim that a
`Hash`-tagged constraint is never silently accepted as passing. -/
theorem hash_silently_accepted_counterexample :
    hashTaggedSystem.constraints.map Constraint.operation = [Operation.Hash] ∧
    hashTaggedSystem.verify_witness [FieldElement.new 5] = some true := by
  decide

/-- Claim C8 (amended): `verify_proof` never returns `true` when a
`Hash`-tagged constraint is present (it either rejects earlier or hits the
fatal `todo!()`), but `verify_witness` ignores the operation tag entirely:
retagging every constraint as `Hash` does not change its result, so a
`Hash`-tagged constraint whose sides agree passes silently there. -/
theorem hash_verification_amended :
    (∀ (pr : Proof) (r : R1CS), (∃ c ∈ r.constraints, c.operation = Operation.Hash) →
      Proof.verify_proof pr r ≠ some true) ∧
    (∀ (r : R1CS) (w : List FieldElement),
      R1CS.verify_witness ⟨r.«variables», r.constraints.map
        (fun c => ⟨c.left, c.right, c.output, Operation.Hash⟩), r.qap⟩ w
        = R1CS.verify_witness r w) :=
  ⟨verify_proof_rejects_hash, fun r w => checkConstraints_op_irrelevant r.constraints w⟩

/-- Claim C8 (amended), witness: the concrete `Hash`-tagged system. -/
theorem hash_verification_amended_witness :
    (∃ c ∈ hashTaggedSystem.constraints, c.operation = Operation.Hash) ∧
    Proof.verify_proof ⟨[], 0⟩ hashTaggedSystem ≠ some true ∧
    R1CS.verify_witness ⟨hashTaggedSystem.«variables», hashTaggedSystem.constraints.map
      (fun c => ⟨c.left, c.right, c.output, Operation.Hash⟩), hashTaggedSystem.qap⟩
      [FieldElement.new 5] = R1CS.verify_witness hashTaggedSystem [FieldElement.new 5] :=
  ⟨by decide, hash_verification_amended.1 ⟨[], 0⟩ hashTaggedSystem (by decide),
   hash_verification_amended.2 hashTaggedSystem [FieldElement.new 5]⟩

/-- An option-valued indexing fold started from `none` stays `none` (the
panic, once reached, is final). -/
theorem optionFold_none {σ : Type} (idx : σ → Nat)
    (comb : FieldElement → σ → FieldElement → FieldElement) (w : List FieldElement) :
    ∀ (l : List σ),
      l.foldl (fun acc e => Option.bind acc (fun r =>
        Option.map (fun v => comb r e v) (w.get? (idx e)))) none = none
  | [] => rfl
  | _ :: rest => optionFold_none idx comb w rest

/-- An option-valued indexing fold over in-bounds indices produces a value. -/
theorem optionFold_isSome {σ : Type} (idx : σ → Nat)
    (comb : FieldElement → σ → FieldElement → FieldElement) (w : List FieldElement) :
    ∀ (l : List σ) (acc : FieldElement), (∀ e ∈ l, idx e < w.length) →
      (l.foldl (fun acc2 e => Option.bind acc2 (fun r =>
        Option.map (fun v => comb r e v) (w.get? (idx e)))) (some acc)).isSome = true
  | [], _, _ => rfl
  | e :: rest, acc, h => by
    rcases hget : w.get? (idx e) with _ | v
    · have hlt := h e (List.mem_cons_self e rest)
      have hge := List.get?_eq_none.mp hget
      omega
    · have hstep : (Option.bind (some acc) (fun r =>
          Option.map (fun v => comb r e v) (w.get? (idx e)))) = some (comb acc e v) := by
        rw [hget]; rfl
      simp only [List.foldl, hstep]
      exact optionFold_isSome idx comb w rest (comb acc e v)
        (fun e2 he2 => h e2 (List.mem_cons_of_mem e he2))

/-- An option-valued indexing fold containing an out-of-bounds index reaches
the panic: the result is `none`. -/
theorem optionFold_oob {σ : Type} (idx : σ → Nat)
    (comb : FieldElement → σ → FieldElement → FieldElement) (w : List FieldElement) :
    ∀ (l : List σ) (acc : FieldElement), (∃ e ∈ l, w.length ≤ idx e) →
      l.foldl (fun acc2 e => Option.bind acc2 (fun r =>
        Option.map (fun v => comb r e v) (w.get? (idx e)))) (some acc) = none
  | [], _, h => by simp at h
  | e :: rest, acc, h => by
    rcases hget : w.get? (idx e) with _ | v
    · have hstep : (Option.bind (some acc) (fun r =>
          Option.map (fun v => comb r e v) (w.get? (idx e)))) = none := by
        rw [hget]; rfl
      simp only [List.foldl, hstep]
      exact optionFold_none idx comb w rest
    · rcases h with ⟨e2, he2, hlen⟩
      rcases List.mem_cons.mp he2 with heq | hmem
      · subst heq
        obtain ⟨hlt, _⟩ := List.get?_eq_some.mp hget
        omega
      · have hstep : (Option.bind (some acc) (fun r =>
            Option.map (fun v => comb r e v) (w.get? (idx e)))) = some (comb acc e v) := by
          rw [hget]; rfl
        simp only [List.foldl, hstep]
        exact optionFold_oob idx comb w rest (comb acc e v) ⟨e2, hmem, hlen⟩

/-- `evalSide` is total when every referenced variable index is in bounds. -/
theorem evalSide_isSome (side : List (Variable × Int)) (w : List FieldElement)
    (h : ∀ e ∈ side, e.1.index < w.length) : (evalSide side w).isSome = true := by
  unfold evalSide
  exact optionFold_isSome (fun (e : Variable × Int) => e.1.index)
    (fun ev e vv => FieldElement.addAssign ev (FieldElement.mulBig vv e.2)) w side
    (FieldElement.new 0) h

/-- `evalSide` panics when some referenced variable index is out of bounds. -/
theorem evalSide_oob (side : List (Variable × Int)) (w : List FieldElement)
    (h : ∃ e ∈ side, w.length ≤ e.1.index) : evalSide side w = none := by
  unfold evalSide
  exact optionFold_oob (fun (e : Variable × Int) => e.1.index)
    (fun ev e vv => FieldElement.addAssign ev (FieldElement.mulBig vv e.2)) w side
    (FieldElement.new 0) h

/-- The `verify_witness` loop is total when every constraint's referenced
indices are in bounds. -/
theorem checkConstraints_isSome : ∀ (cs : List Constraint) (w : List FieldElement),
    (∀ c ∈ cs, ∀ e ∈ c.left ++ c.right ++ c.output, e.1.index < w.length) →
    (checkConstraints cs w).isSome = true
  | [], _, _ => rfl
  | c :: rest, w, h => by
    have hc := h c (List.mem_cons_self c rest)
    have hl := evalSide_isSome c.left w (fun e he => hc e (by simp [he]))
    have hr := evalSide_isSome c.right w (fun e he => hc e (by simp [he]))
    have ho := evalSide_isSome c.output w (fun e he => hc e (by simp [he]))
    obtain ⟨le, hle⟩ := Option.isSome_iff_exists.mp hl
    obtain ⟨re, hre⟩ := Option.isSome_iff_exists.mp hr
    obtain ⟨oe, hoe⟩ := Option.isSome_iff_exists.mp ho
    simp only [checkConstraints, hle, hre, hoe]
    split
    · rfl
    · exact checkConstraints_isSome rest w (fun c2 h2 => h c2 (List.mem_cons_of_mem c h2))

/-- When every constraint before `c` passes its check and `c` references an
out-of-bounds index, the `verify_witness` loop reaches the out-of-bounds
access and panics. -/
theorem checkConstraints_oob : ∀ (pre : List Constraint) (c : Constraint)
    (post : List Constraint) (w : List FieldElement),
    (∀ c2 ∈ pre, constraintHolds c2 w) →
    (∃ e ∈ c.left ++ c.right ++ c.output, w.length ≤ e.1.index) →
    checkConstraints (pre ++ c :: post) w = none
  | [], c, post, w, _, hoob => by
    rcases hoob with ⟨e, he, hlen⟩
    rcases List.mem_append.mp he with he12 | he3
    · rcases List.mem_append.mp he12 with he1 | he2
      · have hL : evalSide c.left w = none := evalSide_oob c.left w ⟨e, he1, hlen⟩
        simp only [List.nil_append, checkConstraints, hL]
      · have hR : evalSide c.right w = none := evalSide_oob c.right w ⟨e, he2, hlen⟩
        rcases hL : evalSide c.left w with _ | le <;>
          simp only [List.nil_append, checkConstraints, hL, hR]
    · have hO : evalSide c.output w = none := evalSide_oob c.output w ⟨e, he3, hlen⟩
      rcases hL : evalSide c.left w with _ | le <;>
        rcases hR : evalSide c.right w with _ | re <;>
          simp only [List.nil_append, checkConstraints, hL, hR, hO]
  | cpre :: rest, c, post, w, hpass, hoob => by
    obtain ⟨le, re, oe, hle, hre, hoe, h1, h2⟩ := hpass cpre (List.mem_cons_self cpre rest)
    simp only [List.cons_append, checkConstraints, hle, hre, hoe]
    rw [if_neg (by simp [h1, h2])]
    exact checkConstraints_oob rest c post w
      (fun c2 hc2 => hpass c2 (List.mem_cons_of_mem cpre hc2)) hoob

/-- Claim C9 counterexample: `outOfBoundsSystem` references variable index `5`
(out of bounds for the two-entry witness) in its second constraint, yet
`verify_witness` is total on it — it returns `false` from the first, failing
constraint before the out-of-bounds access is reached.  This contradicts the
claim that the functions are total *exactly* under the all-indices-in-bounds
precondition and that an out-of-bounds index reaches an out-of-bounds
access. -/
theorem oob_masked_counterexample :
    (∃ c ∈ outOfBoundsSystem.constraints, ∃ e ∈ c.left,
      ([FieldElement.new 3, FieldElement.new 4] : List FieldElement).length ≤ e.1.index) ∧
    outOfBoundsSystem.verify_witness [FieldElement.new 3, FieldElement.new 4] = some false := by
  decide

/-- Claim C9 (amended): `Polynomial.evaluate` is total exactly under the
precondition that every coefficient key is in bounds (an out-of-bounds key
always reaches the out-of-bounds access, since every map entry is visited);
`verify_witness` is total under the same precondition, but its out-of-bounds
access is reached only when every constraint before the offending one passes
its check — a failing earlier constraint returns `false` without reaching
the out-of-bounds index. -/
theorem indexing_totality_amended :
    (∀ (p : Polynomial) (w : List FieldElement),
      (∀ e ∈ p.coefficients, e.1 < w.length) → (p.evaluate w).isSome = true) ∧
    (∀ (p : Polynomial) (w : List FieldElement),
      (∃ e ∈ p.coefficients, w.length ≤ e.1) → p.evaluate w = none) ∧
    (∀ (r : R1CS) (w : List FieldElement),
      (∀ c ∈ r.constraints, ∀ e ∈ c.left ++ c.right ++ c.output, e.1.index < w.length) →
      (r.verify_witness w).isSome = true) ∧
    (∀ (r : R1CS) (pre : List Constraint) (c : Constraint) (post : List Constraint)
      (w : List FieldElement), r.constraints = pre ++ c :: post →
      (∀ c2 ∈ pre, constraintHolds c2 w) →
      (∃ e ∈ c.left ++ c.right ++ c.output, w.length ≤ e.1.index) →
      r.verify_witness w = none) := by
  refine ⟨?_, ?_, ?_, ?_⟩
  · intro p w h
    unfold Polynomial.evaluate
    exact optionFold_isSome (fun (e : Nat × FieldElement) => e.1)
      (fun r e v => r.add (e.2.mul v)) w p.coefficients (FieldElement.new 0) h
  · intro p w h
    unfold Polynomial.evaluate
    exact optionFold_oob (fun (e : Nat × FieldElement) => e.1)
      (fun r e v => r.add (e.2.mul v)) w p.coefficients (FieldElement.new 0) h
  · intro r w h
    exact checkConstraints_isSome r.constraints w h
  · intro r pre c post w hcs hpass hoob
    rw [R1CS.verify_witness, hcs]
    exact checkConstraints_oob pre c post w hpass hoob

/-- Claim C9 (amended), witness: concrete instances of the four parts. -/
theorem indexing_totality_amended_witness :
    ((Polynomial.mk [(0, FieldElement.new 1)]).evaluate [FieldElement.new 2]).isSome = true ∧
    (Polynomial.mk [(3, FieldElement.new 1)]).evaluate [FieldElement.new 2] = none ∧
    (hashTaggedSystem.verify_witness [FieldElement.new 5]).isSome = true ∧
    oobOnlySystem.verify_witness [FieldElement.new 3] = none :=
  ⟨indexing_totality_amended.1 (Polynomial.mk [(0, FieldElement.new 1)]) [FieldElement.new 2]
      (by decide),
   indexing_totality_amended.2.1 (Polynomial.mk [(3, FieldElement.new 1)]) [FieldElement.new 2]
      (by decide),
   indexing_totality_amended.2.2.1 hashTaggedSystem [FieldElement.new 5] (by decide),
   indexing_totality_amended.2.2.2 oobOnlySystem []
      ⟨[(⟨5, FieldElement.new 0⟩, 1)], [], [], Operation.Add⟩ [] [FieldElement.new 3] rfl
      (by simp) (by decide)⟩

/-- One level reduction shrinks the node count to `(n + 1) / 2`. -/
theorem nextLevel_length : ∀ (l : List Int), (nextLevel l).length = (l.length + 1) / 2
  | [] => rfl
  | [_] => by simp [nextLevel]
  | _ :: _ :: rest => by
    simp only [nextLevel, List.length_cons, nextLevel_length rest]
    omega

/-- Unfolding step of `compute_root` on two or more nodes. -/
theorem compute_root_step (a b : Int) (rest : List Int) :
    MerkleTree.compute_root (a :: b :: rest)
      = MerkleTree.compute_root (nextLevel (a :: b :: rest)) := by
  rw [MerkleTree.compute_root]

/-- Node `k` of the next level is the hash of nodes `2k` and `2k + 1` when
both exist. -/
theorem nextLevel_get_pair : ∀ (l : List Int) (k : Nat) (a b : Int),
    l.get? (2 * k) = some a → l.get? (2 * k + 1) = some b →
    (nextLevel l).get? k = some (MerkleTree.hash a b)
  | [], _, _, _, ha, _ => by simp at ha
  | [x], k, a, b, _, hb => by
    have : ([x] : List Int).get? (2 * k + 1) = none :=
      List.get?_eq_none.mpr (by simp only [List.length_singleton]; omega)
    rw [this] at hb
    exact Option.noConfusion hb
  | x :: y :: rest, 0, a, b, ha, hb => by
    simp only [Nat.mul_zero, List.get?] at ha hb
    obtain rfl : x = a := Option.some.inj ha
    obtain rfl : y = b := Option.some.inj hb
    rfl
  | x :: y :: rest, k + 1, a, b, ha, hb => by
    have h2 : 2 * (k + 1) = 2 * k + 1 + 1 := by omega
    rw [h2] at ha hb
    simp only [List.get?] at ha hb
    have := nextLevel_get_pair rest k a b ha hb
    simpa [nextLevel] using this

/-- Node `k` of the next level is node `2k` carried forward unchanged when it
is the trailing node of an odd-length level. -/
theorem nextLevel_get_last : ∀ (l : List Int) (k : Nat) (a : Int),
    l.get? (2 * k) = some a → l.get? (2 * k + 1) = none →
    (nextLevel l).get? k = some a
  | [], _, _, ha, _ => by simp at ha
  | [x], k, a, ha, _ => by
    rcases k with _ | k2
    · simp only [Nat.mul_zero, List.get?] at ha
      obtain rfl : x = a := Option.some.inj ha
      rfl
    · have : ([x] : List Int).get? (2 * (k2 + 1)) = none :=
        List.get?_eq_none.mpr (by simp only [List.length_singleton]; omega)
      rw [this] at ha
      exact Option.noConfusion ha
  | x :: y :: rest, 0, a, ha, hb => by
    simp only [Nat.mul_zero, List.get?] at hb
    exact Option.noConfusion hb
  | x :: y :: rest, k + 1, a, ha, hb => by
    have h2 : 2 * (k + 1) = 2 * k + 1 + 1 := by omega
    rw [h2] at ha hb
    simp only [List.get?] at ha hb
    have := nextLevel_get_last rest k a ha hb
    simpa [nextLevel] using this

/-- Unfolding step of the `merkle_path` level loop on two or more nodes. -/
theorem merklePathAux_step (a b : Int) (rest : List Int) (c : Nat) :
    merklePathAux (a :: b :: rest) c =
      (match (a :: b :: rest).get? (if c % 2 = 0 then c + 1 else c - 1) with
        | some s => [(s, decide (c % 2 = 0))]
        | none => []) ++ merklePathAux (nextLevel (a :: b :: rest)) (c / 2) := by
  rw [merklePathAux]

/-- Replaying the path recorded from any in-range position reconstructs the
root: at every level the current node combined with the recorded sibling (or
carried forward unchanged when no sibling was recorded) is exactly the node
tracked at the halved index of the next level. -/
theorem merkle_path_replay (nodes : List Int) (c : Nat) (x : Int)
    (h : nodes.get? c = some x) :
    MerkleTree.compute_root nodes = some (replayPath x (merklePathAux nodes c)) := by
  match nodes with
  | [] => simp at h
  | [a] =>
    rcases c with _ | c2
    · simp only [List.get?] at h
      obtain rfl : a = x := Option.some.inj h
      simp [MerkleTree.compute_root, merklePathAux, replayPath]
    · simp only [List.get?] at h
      simp at h
  | a :: b :: rest =>
    have hlen : c < (a :: b :: rest).length := (List.get?_eq_some.mp h).1
    rcases Nat.mod_two_eq_zero_or_one c with hc | hc
    · have h2k : 2 * (c / 2) = c := by omega
      rcases hsib : (a :: b :: rest).get? (c + 1) with _ | s
      · have hnext : (nextLevel (a :: b :: rest)).get? (c / 2) = some x :=
          nextLevel_get_last (a :: b :: rest) (c / 2) x (by rw [h2k]; exact h)
            (by rw [h2k]; exact hsib)
        have hrec := merkle_path_replay (nextLevel (a :: b :: rest)) (c / 2) x hnext
        rw [compute_root_step, hrec]
        rw [merklePathAux_step, if_pos hc, hsib]
        rfl
      · have hnext : (nextLevel (a :: b :: rest)).get? (c / 2)
            = some (MerkleTree.hash x s) :=
          nextLevel_get_pair (a :: b :: rest) (c / 2) x s (by rw [h2k]; exact h)
            (by rw [h2k]; exact hsib)
        have hrec := merkle_path_replay (nextLevel (a :: b :: rest)) (c / 2)
          (MerkleTree.hash x s) hnext
        rw [compute_root_step, hrec]
        rw [merklePathAux_step, if_pos hc, hsib]
        have hdec : decide (c % 2 = 0) = true := by simp [hc]
        rw [hdec]
        rfl
    · have hone : c % 2 = 0 → False := by omega
      have h2k : 2 * (c / 2) = c - 1 := by omega
      have h2k1 : 2 * (c / 2) + 1 = c := by omega
      have hlt : c - 1 < (a :: b :: rest).length := by omega
      rcases hsib : (a :: b :: rest).get? (c - 1) with _ | s
      · have := List.get?_eq_none.mp hsib
        omega
      · have hnext : (nextLevel (a :: b :: rest)).get? (c / 2)
            = some (MerkleTree.hash s x) :=
          nextLevel_get_pair (a :: b :: rest) (c / 2) s x (by rw [h2k]; exact hsib)
            (by rw [h2k1]; exact h)
        have hrec := merkle_path_replay (nextLevel (a :: b :: rest)) (c / 2)
          (MerkleTree.hash s x) hnext
        rw [compute_root_step, hrec]
        rw [merklePathAux_step, if_neg hone, hsib]
        have hdec : decide (c % 2 = 0) = false := by simp [hc]
        rw [hdec]
        rfl
termination_by nodes.length
decreasing_by
  all_goals
    rw [nextLevel_length]
    simp only [List.length_cons]
    omega

/-- The level reduction of `compute_root` terminates with a root for every
non-empty leaf list. -/
theorem compute_root_isSome (l : List Int) (h : l ≠ []) :
    ∃ r, MerkleTree.compute_root l = some r := by
  match l with
  | [] => exact absurd rfl h
  | [x] => exact ⟨x, by simp [MerkleTree.compute_root]⟩
  | a :: b :: rest =>
    have hne : nextLevel (a :: b :: rest) ≠ [] := by simp [nextLevel]
    obtain ⟨r, hr⟩ := compute_root_isSome (nextLevel (a :: b :: rest)) hne
    exact ⟨r, by rw [compute_root_step]; exact hr⟩
termination_by l.length
decreasing_by
  rw [nextLevel_length]
  simp only [List.length_cons]
  omega

/-- Claim C7: replaying `merkle_path(i)` against the leaf at position `i`
with the additive combiner reconstructs exactly `compute_root(leaves)`. -/
theorem merkle_path_roundtrip (t : MerkleTree) (i : Nat) (x : Int)
    (h : t.leaves.get? i = some x) :
    MerkleTree.compute_root t.leaves = some (replayPath x (t.merkle_path i)) :=
  merkle_path_replay t.leaves i x h

/-- Claim C7, witness: the three-leaf tree `[1, 2, 3]` at index `1` (a path
with both a paired level and a carried odd node). -/
theorem merkle_path_roundtrip_witness :
    (MerkleTree.mk 0 [1, 2, 3]).leaves.get? 1 = some 2 ∧
    MerkleTree.compute_root ((MerkleTree.mk 0 [1, 2, 3]).leaves)
      = some (replayPath 2 ((MerkleTree.mk 0 [1, 2, 3]).merkle_path 1)) :=
  ⟨rfl, merkle_path_roundtrip (MerkleTree.mk 0 [1, 2, 3]) 1 2 rfl⟩

/-- Claim C10: `MerkleTree` construction succeeds on every non-empty leaf
vector — the level-reduction loop terminates with a single node, stored as
the root — while on the empty vector the final `nodes[0]` indexing is out of
bounds and construction fails. -/
theorem merkle_new_requires_nonempty :
    (∀ leaves : List Int, leaves ≠ [] →
      ∃ t, MerkleTree.new leaves = some t ∧ t.root ∈ (MerkleTree.compute_root leaves) ∧
        t.leaves = leaves) ∧
    MerkleTree.new ([] : List Int) = none := by
  constructor
  · intro leaves h
    obtain ⟨r, hr⟩ := compute_root_isSome leaves h
    refine ⟨⟨r, leaves⟩, ?_, ?_, rfl⟩
    · simp [MerkleTree.new, hr]
    · simp [hr]
  · simp [MerkleTree.new, MerkleTree.compute_root]

/-- Claim C10, witness: the singleton leaf vector `[7]`. -/
theorem merkle_new_requires_nonempty_witness :
    (([7] : List Int) ≠ []) ∧
    ∃ t, MerkleTree.new [7] = some t ∧ t.root ∈ (MerkleTree.compute_root [7]) ∧
      t.leaves = [7] :=
  ⟨by decide, merkle_new_requires_nonempty.1 [7] (by decide)⟩

end ZK
